import Mathlib

/-!
Verification of the fieldmanual documentation-build configuration script
(`sphinx-docs/conf.py`) against its natural-language specification.

The script under `src/` is the orchestration file `conf.py`; the helper
modules it imports (`plugins.fieldmanual.utils.command_lexer`,
`plugins.fieldmanual.utils.ability_csv`,
`plugins.fieldmanual.utils.plugin_docs`) belong to this repository but are
not present under `src/`, so they are modelled here from the specification,
as indicated in each doc comment.
-/

namespace Fieldmanual

/- ## Command lexer -/

/-- Lexical categories assigned by the command lexer: keyword, argument,
string, comment, and plain text for unrecognized spans. -/
inductive TokenCategory where
  | keyword
  | argument
  | string
  | comment
  | text
  deriving DecidableEq, Repr

/-- Characters treated as intra-line whitespace by the lexer model. -/
def isSpaceCh (c : Char) : Bool :=
  c == ' ' || c == '\t'

/-- Negation of `isSpaceCh`, used to delimit unquoted words. -/
def notSpace (c : Char) : Bool :=
  !(isSpaceCh c)

/-- True for every character other than a double quote; delimits the body
of a quoted string span. -/
def notQuote (c : Char) : Bool :=
  !(c == '"')

/-- Modelled from the spec: one step of `CalderaCommandLexer`
(`plugins.fieldmanual.utils.command_lexer`, not under `src/`).  Given the
flag saying whether the next word is the first word of the line and the
remaining input, emit the next (span, category) pair together with the
updated flag and the rest of the input.  The first word of a line is a
keyword, words starting with `-` are arguments, `"`-delimited spans are
strings, `#` starts a comment running to the end of the line, and
whitespace runs and all unrecognized words are plain text.  An unterminated
quoted span is classified as a string to the end of the line (best-effort,
never a failure). -/
def lexStep (first : Bool) : List Char → Option ((List Char × TokenCategory) × (Bool × List Char))
  | [] => none
  | c :: cs =>
    if isSpaceCh c then
      some ((c :: cs.takeWhile isSpaceCh, TokenCategory.text), (first, cs.dropWhile isSpaceCh))
    else if c == '"' then
      match cs.dropWhile notQuote with
      | [] => some ((c :: cs, TokenCategory.string), (false, []))
      | _ :: rest =>
          some ((c :: (cs.takeWhile notQuote ++ ['"']), TokenCategory.string), (false, rest))
    else if c == '#' then
      some ((c :: cs, TokenCategory.comment), (false, []))
    else
      let cat := if first then TokenCategory.keyword
                 else if c == '-' then TokenCategory.argument
                 else TokenCategory.text
      some ((c :: cs.takeWhile notSpace, cat), (false, cs.dropWhile notSpace))

/-- Fuel-indexed driver for the lexer: repeatedly apply `lexStep` until the
input is exhausted.  `fuel ≥ length of the input` suffices because every
step consumes at least one character. -/
def lexLineF : Nat → Bool → List Char → List (List Char × TokenCategory)
  | 0, _, _ => []
  | Nat.succ fuel, first, cs =>
    match lexStep first cs with
    | none => []
    | some (tok, st) => tok :: lexLineF fuel st.1 st.2

/-- Modelled from the spec: `CalderaCommandLexer` applied to one input line
(`plugins.fieldmanual.utils.command_lexer`, not under `src/`): the ordered
sequence of (span, category) pairs for the line. -/
def lexLine (cs : List Char) : List (List Char × TokenCategory) :=
  lexLineF cs.length true cs

/-- Concatenation, in order, of the spans emitted by the lexer. -/
def joinSpans (l : List (List Char × TokenCategory)) : List Char :=
  l.foldr (fun p acc => p.1 ++ acc) []

/- ## Ability CSV exporter -/

/-- An ability record, per the spec's data model: identifier, name,
description and tactic/technique references, all read-only text fields. -/
structure AbilityRecord where
  ability_id : String
  name : String
  description : String
  tactic : String
  technique : String
  deriving DecidableEq, Repr

/-- Characters that force CSV quoting of a field: the delimiter, the
quote, and line breaks. -/
def csvSpecialCh (c : Char) : Bool :=
  c == ',' || c == '"' || c == '\n' || c == '\r'

/-- Whether a field must be quoted when written to CSV. -/
def csvNeedsQuote (s : List Char) : Bool :=
  s.any csvSpecialCh

/-- Double every quote character of a field body, per standard CSV
quoting. -/
def csvEscapeQuotes : List Char → List Char
  | [] => []
  | c :: cs =>
      if c == '"' then '"' :: '"' :: csvEscapeQuotes cs
      else c :: csvEscapeQuotes cs

/-- Modelled from the spec: serialization of one field by the CSV exporter
(`plugins.fieldmanual.utils.ability_csv`, not under `src/`): fields
containing delimiters, quotes or newlines are wrapped in quotes with inner
quotes doubled, per standard CSV quoting; other fields are written
verbatim. -/
def csvField (s : List Char) : List Char :=
  if csvNeedsQuote s then '"' :: (csvEscapeQuotes s ++ ['"']) else s

/-- A CSV record line: the given already-serialized fields joined by
commas. -/
def csvRow : List (List Char) → List Char
  | [] => []
  | [f] => f
  | f :: g :: fs => f ++ ',' :: csvRow (g :: fs)

/-- The fixed column order of an ability record: identifier, name,
description, tactic, technique. -/
def abilityFields (a : AbilityRecord) : List (List Char) :=
  [a.ability_id.data, a.name.data, a.description.data, a.tactic.data,
   a.technique.data]

/-- The CSV line written for one ability record. -/
def abilityRow (a : AbilityRecord) : List Char :=
  csvRow ((abilityFields a).map csvField)

/-- The fixed header row of the exported CSV. -/
def csvHeader : List (List Char) :=
  ["ability_id".data, "name".data, "description".data, "tactic".data,
   "technique".data]

/-- Modelled from the spec: the rows produced by `generate_ability_csv`
(`plugins.fieldmanual.utils.ability_csv`, not under `src/`): a fixed
header row followed by exactly one row per ability record, in deterministic
column order. -/
def generate_ability_csv (records : List AbilityRecord) : List (List Char) :=
  csvRow csvHeader :: records.map abilityRow

/-- True for every character other than the CSV delimiter. -/
def notComma (c : Char) : Bool :=
  !(c == ',')

/-- Standard CSV reading of a quoted field: the input starts just after
the opening quote; returns the field content and the input following the
closing quote.  A doubled quote is read as one literal quote. -/
def parseQuoted : List Char → (List Char × List Char)
  | [] => ([], [])
  | c :: cs =>
      if c == '"' then
        match cs with
        | [] => ([], [])
        | d :: cs' =>
            if d == '"' then
              let p := parseQuoted cs'
              ('"' :: p.1, p.2)
            else ([], cs)
      else
        let p := parseQuoted cs
        (c :: p.1, p.2)

/-- Fuel-indexed splitting of one CSV record line into its fields,
honouring quoting. -/
def splitFields : Nat → List Char → List (List Char)
  | 0, s => [s]
  | Nat.succ fuel, s =>
      match s with
      | [] => [[]]
      | c :: cs =>
          if c == '"' then
            let p := parseQuoted cs
            match p.2 with
            | [] => [p.1]
            | d :: r =>
                if d == ',' then p.1 :: splitFields fuel r else [p.1 ++ p.2]
          else
            let f := (c :: cs).takeWhile notComma
            match (c :: cs).dropWhile notComma with
            | [] => [f]
            | _ :: r => f :: splitFields fuel r

/-- Standard CSV reading of one record line into its field values. -/
def parseRow (s : List Char) : List (List Char) :=
  splitFields (s.length + 1) s

/-- Filesystem state relevant to the CSV export: the contents at the
target path and at the temporary path, if those files exist. -/
structure FsState where
  target : Option (List (List Char))
  temp : Option (List (List Char))
  deriving DecidableEq, Repr

/-- Modelled from the spec: the write performed by `generate_ability_csv`
(`plugins.fieldmanual.utils.ability_csv`, not under `src/`), which per the
spec succeeds or fails atomically relative to the target path via
write-to-temp-then-rename or equivalent.  `ok` abstracts whether the
underlying file-system operations succeed (false models permission denied,
disk full, and similar).  On success the complete row list is renamed onto
the target; on failure the temporary file is discarded, the target path is
left untouched, and the failure is reported to the caller (`conf.py` runs
the exporter with no handler, so a reported failure is fatal to the
build). -/
def atomicCsvWrite (records : List AbilityRecord) (ok : Bool) (fs : FsState) :
    FsState × Bool :=
  if ok then
    ({ target := some (generate_ability_csv records), temp := none }, true)
  else
    ({ target := fs.target, temp := none }, false)

/- ## Plugin documentation importer -/

/-- A plugin as seen by the documentation importer: its name and, when the
plugin ships documentation, the relative-path / content pairs of its doc
files; `none` models a plugin with no documentation source directory. -/
structure PluginInfo where
  name : String
  docs : Option (List (String × String))

/-- A documentation build tree: file contents by path. -/
def DocTree : Type :=
  String → Option String

/-- Write one file into the build tree, overwriting any file already at
that path. -/
def writeTreeFile (tree : DocTree) (path content : String) : DocTree :=
  fun q => if q = path then some content else tree q

/-- Apply a sequence of file writes to the build tree, in order. -/
def applyWrites (ws : List (String × String)) (tree : DocTree) : DocTree :=
  ws.foldl (fun t w => writeTreeFile t w.1 w.2) tree

/-- The conventional destination of one plugin documentation file inside
the build tree. -/
def destPath (bldRoot plugName rel : String) : String :=
  bldRoot ++ "/plugins/" ++ plugName ++ "/" ++ rel

/-- The file writes contributed by one plugin: none when the plugin has no
documentation directory, otherwise one write per documentation file. -/
def pluginWrites (bldRoot : String) (p : PluginInfo) : List (String × String) :=
  match p.docs with
  | none => []
  | some files => files.map (fun f => (destPath bldRoot p.name f.1, f.2))

/-- All file writes of one import run, in plugin order. -/
def planWrites (bldRoot : String) (plugins : List PluginInfo) :
    List (String × String) :=
  plugins.foldr (fun p acc => pluginWrites bldRoot p ++ acc) []

/-- Modelled from the spec: `import_plugin_docs`
(`plugins.fieldmanual.utils.plugin_docs`, not under `src/`): scan the
plugins, copy each found plugin's documentation files to their
conventional destination in the build tree (overwriting what is already
there), skip plugins with no documentation directory, and report the list
of plugins found for the build log. -/
def import_plugin_docs (plugins : List PluginInfo) (bldRoot : String)
    (tree : DocTree) : DocTree × List String :=
  (applyWrites (planWrites bldRoot plugins) tree,
   (plugins.filter (fun p => p.docs.isSome)).map (fun p => p.name))

/-- The last write to a given path in a write sequence, if any. -/
def lastWrite : List (String × String) → String → Option String
  | [], _ => none
  | w :: ws, q =>
      match lastWrite ws q with
      | some c => some c
      | none => if q = w.1 then some w.2 else none

/- ## conf.py orchestration (from src/sphinx-docs/conf.py) -/

/-- From `conf.py`: `caldera_root_dir = pathlib.Path('../../..').absolute()`,
the host-project root, resolved once as the absolute form of `../../..`
relative to the current working directory; absolutization of a relative
path is modelled as joining it to the working directory. -/
def caldera_root_dir (cwd : String) : String :=
  cwd ++ "/../../.."

/-- The path arguments `conf.py` hands to each component: the entry
inserted at the front of the module search path, the source directory
given to the apidoc stub generator, and the root directories given to the
plugin documentation importer and the ability CSV exporter. -/
structure ConfCalls where
  sysPathEntry : String
  apidocTarget : String
  pluginDocsRoot : String
  csvRoot : String
  deriving DecidableEq, Repr

/-- From `conf.py`: the component invocations as a function of the working
directory.  `sys.path.insert(0, str(caldera_root_dir))` receives the root,
`apidocs_argv` ends in `str(caldera_root_dir / 'app')`, and
`import_plugin_docs` and `generate_ability_csv` receive
`caldera_root_dir` itself. -/
def confCalls (cwd : String) : ConfCalls :=
  let root := caldera_root_dir cwd
  { sysPathEntry := root
    apidocTarget := root ++ "/app"
    pluginDocsRoot := root
    csvRoot := root }

/-- Results of the three fallible component invocations of `conf.py`,
abstracting the external environment: each step either succeeds or raises
an error. -/
structure BuildEnv where
  apidocResult : Except String Unit
  pluginDocsResult : Except String Unit
  csvResult : Except String Unit

/-- From `conf.py`: the three component invocations run in order at module
top level with no exception handler, so the first failure aborts the
script and surfaces to the build invoker.  Returns the list of steps
started and the first error, if any. -/
def confTrace (env : BuildEnv) : List String × Option String :=
  match env.apidocResult with
  | Except.error e => (["apidoc"], some e)
  | Except.ok _ =>
      match env.pluginDocsResult with
      | Except.error e => (["apidoc", "import_plugin_docs"], some e)
      | Except.ok _ =>
          match env.csvResult with
          | Except.error e =>
              (["apidoc", "import_plugin_docs", "generate_ability_csv"], some e)
          | Except.ok _ =>
              (["apidoc", "import_plugin_docs", "generate_ability_csv"], none)

/- ## Lexer lemmas -/

theorem length_dropWhile_le (p : Char → Bool) (l : List Char) :
    (l.dropWhile p).length ≤ l.length := by
  induction l with
  | nil => simp
  | cons c cs ih =>
      by_cases h : p c
      · rw [List.dropWhile_cons_of_pos h]
        exact Nat.le_succ_of_le ih
      · rw [List.dropWhile_cons_of_neg h]

theorem dropWhile_head_false (p : Char → Bool) (l : List Char) (q : Char)
    (r : List Char) (h : l.dropWhile p = q :: r) : p q = false := by
  induction l with
  | nil => simp at h
  | cons c cs ih =>
      by_cases hc : p c
      · rw [List.dropWhile_cons_of_pos hc] at h
        exact ih h
      · rw [List.dropWhile_cons_of_neg hc] at h
        cases h
        exact Bool.eq_false_iff.mpr hc

/-- A successful lexer step splits the input exactly: the emitted span
followed by the leftover input is the original input, the span is
nonempty, and the leftover is strictly shorter. -/
theorem lexStep_splits (first : Bool) (cs : List Char) (tok : List Char)
    (cat : TokenCategory) (f : Bool) (rest : List Char)
    (h : lexStep first cs = some ((tok, cat), (f, rest))) :
    tok ++ rest = cs ∧ tok ≠ [] ∧ rest.length < cs.length := by
  match cs with
  | [] => simp [lexStep] at h
  | c :: cs' =>
    by_cases hsp : isSpaceCh c
    · simp only [lexStep, hsp, if_pos, Option.some.injEq, Prod.mk.injEq] at h
      obtain ⟨⟨h1, -⟩, -, h4⟩ := h
      subst h1
      subst h4
      refine ⟨?_, by simp, ?_⟩
      · simp [List.takeWhile_append_dropWhile]
      · exact Nat.lt_succ_of_le (length_dropWhile_le _ _)
    · by_cases hq : c == '"'
      · rcases hd : cs'.dropWhile notQuote with _ | ⟨q, r⟩
        · simp only [lexStep, hsp, hq, hd, if_neg, if_pos, Bool.false_eq_true,
            not_false_iff, Option.some.injEq, Prod.mk.injEq] at h
          obtain ⟨⟨h1, -⟩, -, h4⟩ := h
          subst h1; subst h4
          exact ⟨by simp, by simp, by simp⟩
        · simp only [lexStep, hsp, hq, hd, if_neg, if_pos, Bool.false_eq_true,
            not_false_iff, Option.some.injEq, Prod.mk.injEq] at h
          obtain ⟨⟨h1, -⟩, -, h4⟩ := h
          subst h1; subst h4
          have hq' : q = '"' := by
            have := dropWhile_head_false notQuote cs' q r hd
            simpa [notQuote] using this
          constructor
          · have hsplit : cs'.takeWhile notQuote ++ cs'.dropWhile notQuote = cs' :=
              List.takeWhile_append_dropWhile notQuote cs'
            rw [hd, hq'] at hsplit
            simp only [List.cons_append, List.append_assoc, List.cons_inj_right]
            simpa using hsplit
          · refine ⟨by simp, ?_⟩
            have h1 : (cs'.dropWhile notQuote).length ≤ cs'.length :=
              length_dropWhile_le _ _
            rw [hd] at h1
            simp only [List.length_cons] at h1 ⊢
            omega
      · by_cases hcm : c == '#'
        · simp only [lexStep, hsp, hq, hcm, if_neg, if_pos, Bool.false_eq_true,
            not_false_iff, Option.some.injEq, Prod.mk.injEq] at h
          obtain ⟨⟨h1, -⟩, -, h4⟩ := h
          subst h1; subst h4
          exact ⟨by simp, by simp, by simp⟩
        · simp only [lexStep, hsp, hq, hcm, if_neg, Bool.false_eq_true,
            not_false_iff, Option.some.injEq, Prod.mk.injEq] at h
          obtain ⟨⟨h1, -⟩, -, h4⟩ := h
          subst h1; subst h4
          refine ⟨?_, by simp, ?_⟩
          · simp [List.takeWhile_append_dropWhile]
          · exact Nat.lt_succ_of_le (length_dropWhile_le _ _)

/-- On nonempty input the lexer step always succeeds. -/
theorem lexStep_cons_isSome (first : Bool) (c : Char) (cs' : List Char) :
    (lexStep first (c :: cs')).isSome := by
  simp only [lexStep]
  by_cases hsp : isSpaceCh c
  · simp [hsp]
  · by_cases hq : c == '"'
    · rcases hd : cs'.dropWhile notQuote with _ | ⟨q, r⟩ <;> simp [hsp, hq, hd]
    · by_cases hcm : c == '#' <;> simp [hsp, hq, hcm]

theorem lexLineF_join (fuel : Nat) :
    ∀ (first : Bool) (cs : List Char), cs.length ≤ fuel →
      joinSpans (lexLineF fuel first cs) = cs := by
  induction fuel with
  | zero =>
      intro first cs hle
      have : cs = [] := List.length_eq_zero.mp (Nat.le_zero.mp hle)
      subst this
      rfl
  | succ fuel ih =>
      intro first cs hle
      rcases hstep : lexStep first cs with _ | ⟨⟨tok, cat⟩, f, rest⟩
      · have : cs = [] := by
          match cs with
          | [] => rfl
          | c :: cs' =>
            exfalso
            have := lexStep_cons_isSome first c cs'
            rw [hstep] at this
            simp at this
        subst this
        simp [lexLineF, hstep]
        rfl
      · obtain ⟨hsplit, -, hlt⟩ := lexStep_splits first cs tok cat f rest hstep
        have hrest : rest.length ≤ fuel := by omega
        simp only [lexLineF, hstep]
        show joinSpans ((tok, cat) :: lexLineF fuel f rest) = cs
        have : joinSpans ((tok, cat) :: lexLineF fuel f rest)
            = tok ++ joinSpans (lexLineF fuel f rest) := rfl
        rw [this, ih f rest hrest, hsplit]

/- ## Lexer claim theorems -/

/-- C1: for every input line, the lexer emits an ordered sequence of
(span, category) pairs whose spans, concatenated in order, equal exactly
the original input — no gaps and no overlaps. -/
theorem lexer_spans_cover_input (cs : List Char) :
    joinSpans (lexLine cs) = cs :=
  lexLineF_join cs.length true cs (Nat.le_refl _)

/-- C2: for every input, malformed input included, the lexer never fails:
on any nonempty remaining input the step function always produces a next
classified span, that span is nonempty, and the leftover input is strictly
shorter, so lexing always completes with every span assigned a category
(unrecognized spans receive the plain-text category in `lexStep`). -/
theorem lexer_never_fails (first : Bool) (c : Char) (cs : List Char) :
    ∃ tok cat f rest,
      lexStep first (c :: cs) = some ((tok, cat), (f, rest)) ∧
        tok ≠ [] ∧ rest.length ≤ cs.length := by
  have hsome := lexStep_cons_isSome first c cs
  rcases hstep : lexStep first (c :: cs) with _ | ⟨⟨tok, cat⟩, f, rest⟩
  · rw [hstep] at hsome
    simp at hsome
  · obtain ⟨-, hne, hlt⟩ := lexStep_splits first (c :: cs) tok cat f rest hstep
    exact ⟨tok, cat, f, rest, rfl, hne, by
      simp only [List.length_cons] at hlt
      omega⟩

/-- C3: on the input line `some-command --flag "value"` the lexer returns
exactly the spans (some-command, keyword), (space, text), (--flag,
argument), (space, text), (quoted value, string). -/
theorem lexer_example_line :
    lexLine "some-command --flag \"value\"".data =
      [("some-command".data, TokenCategory.keyword),
       (" ".data, TokenCategory.text),
       ("--flag".data, TokenCategory.argument),
       (" ".data, TokenCategory.text),
       ("\"value\"".data, TokenCategory.string)] := by
  decide

/- ## CSV lemmas -/

theorem parseQuoted_escaped (s rest : List Char) (hrest : rest.head? ≠ some '"') :
    parseQuoted (csvEscapeQuotes s ++ '"' :: rest) = (s, rest) := by
  induction s with
  | nil =>
      match rest with
      | [] => simp [csvEscapeQuotes, parseQuoted]
      | d :: cs' =>
        have hd : ¬ (d == '"') := by
          simp only [List.head?] at hrest
          simp only [beq_iff_eq]
          intro h
          exact hrest (by rw [h])
        simp [csvEscapeQuotes, parseQuoted, hd]
  | cons c s' ih =>
      by_cases hc : c == '"'
      · have hc' : c = '"' := by simpa using hc
        subst hc'
        simp only [csvEscapeQuotes, beq_self_eq_true, if_pos, List.cons_append]
        simp only [parseQuoted, beq_self_eq_true, if_pos]
        rw [ih]
      · simp only [csvEscapeQuotes, hc, if_neg, List.cons_append, Bool.false_eq_true,
          not_false_iff]
        rw [parseQuoted.eq_def]
        simp only [hc, if_neg, Bool.false_eq_true, not_false_iff]
        rw [ih]

theorem splitFields_succ_quote (fuel : Nat) (cs : List Char) :
    splitFields (Nat.succ fuel) ('"' :: cs) =
      (match (parseQuoted cs).2 with
      | [] => [(parseQuoted cs).1]
      | d :: r =>
          if d == ',' then (parseQuoted cs).1 :: splitFields fuel r
          else [(parseQuoted cs).1 ++ (parseQuoted cs).2]) := rfl

theorem splitFields_succ_other (fuel : Nat) (c : Char) (cs : List Char)
    (h : (c == '"') = false) :
    splitFields (Nat.succ fuel) (c :: cs) =
      (match (c :: cs).dropWhile notComma with
      | [] => [(c :: cs).takeWhile notComma]
      | _ :: r => (c :: cs).takeWhile notComma :: splitFields fuel r) := by
  rw [splitFields.eq_def]
  simp [h]

theorem csvNeedsQuote_false_mem (f : List Char) (h : csvNeedsQuote f = false) :
    ∀ c ∈ f, notComma c = true ∧ (c == '"') = false := by
  intro c hc
  have hs : csvSpecialCh c = false := by
    simp only [csvNeedsQuote, List.any_eq_false] at h
    exact Bool.not_eq_true _ ▸ Bool.eq_false_iff.mpr (h c hc)
  simp only [csvSpecialCh, Bool.or_eq_false_iff] at hs
  refine ⟨?_, ?_⟩
  · simp only [notComma, Bool.not_eq_true']
    exact hs.1.1.1
  · exact hs.1.1.2

theorem splitFields_round (fs' : List (List Char)) :
    ∀ (f : List Char) (fuel : Nat), fs'.length ≤ fuel →
      splitFields (Nat.succ fuel) (csvRow ((f :: fs').map csvField)) = f :: fs' := by
  induction fs' with
  | nil =>
      intro f fuel _
      simp only [List.map_cons, List.map_nil, csvRow]
      by_cases hq : csvNeedsQuote f
      · have hcf : csvField f = '"' :: (csvEscapeQuotes f ++ ['"']) := by
          simp [csvField, hq]
        rw [hcf, splitFields_succ_quote]
        have hp : parseQuoted (csvEscapeQuotes f ++ '"' :: []) = (f, []) :=
          parseQuoted_escaped f [] (by simp)
        rw [show (csvEscapeQuotes f ++ ['"'] : List Char)
              = csvEscapeQuotes f ++ '"' :: [] from rfl, hp]
      · have hq' : csvNeedsQuote f = false := Bool.eq_false_iff.mpr hq
        have hcf : csvField f = f := by simp [csvField, hq']
        rw [hcf]
        match f, hq' with
        | [], _ => rfl
        | c :: cs, hq' =>
          have hmem := csvNeedsQuote_false_mem (c :: cs) hq'
          have hc : (c == '"') = false := (hmem c (by simp)).2
          rw [splitFields_succ_other fuel c cs hc]
          have ht : (c :: cs).takeWhile notComma = c :: cs :=
            List.takeWhile_eq_self_iff.mpr (fun x hx => (hmem x hx).1)
          have hdrop : (c :: cs).dropWhile notComma = [] :=
            List.dropWhile_eq_nil_iff.mpr (fun x hx => (hmem x hx).1)
          rw [hdrop, ht]
  | cons g fs'' ih =>
      intro f fuel hle
      cases fuel with
      | zero => simp at hle
      | succ fuel' =>
        have hle' : fs''.length ≤ fuel' := by simpa using hle
        have hrowIH := ih g fuel' hle'
        simp only [List.map_cons, csvRow]
        by_cases hq : csvNeedsQuote f
        · have hcf : csvField f = '"' :: (csvEscapeQuotes f ++ ['"']) := by
            simp [csvField, hq]
          rw [hcf]
          rw [show ('"' :: (csvEscapeQuotes f ++ ['"'])) ++
                ',' :: csvRow (csvField g :: fs''.map csvField)
              = '"' :: (csvEscapeQuotes f ++
                  '"' :: (',' :: csvRow (csvField g :: fs''.map csvField))) by
            simp]
          rw [splitFields_succ_quote]
          have hp : parseQuoted (csvEscapeQuotes f ++
              '"' :: (',' :: csvRow (csvField g :: fs''.map csvField)))
              = (f, ',' :: csvRow (csvField g :: fs''.map csvField)) :=
            parseQuoted_escaped f _ (by simp)
          rw [hp]
          simp only [beq_self_eq_true, if_pos]
          rw [show csvRow (csvField g :: fs''.map csvField)
                = csvRow ((g :: fs'').map csvField) by simp [List.map_cons]]
          rw [hrowIH]
        · have hq' : csvNeedsQuote f = false := Bool.eq_false_iff.mpr hq
          have hcf : csvField f = f := by simp [csvField, hq']
          rw [hcf]
          match f, hq' with
          | [], _ =>
            rw [List.nil_append]
            have hc : ((',' : Char) == '"') = false := by decide
            rw [splitFields_succ_other (fuel' + 1) ',' _ hc]
            have hdrop : (',' :: csvRow (csvField g :: fs''.map csvField)).dropWhile notComma
                = ',' :: csvRow (csvField g :: fs''.map csvField) :=
              List.dropWhile_cons_of_neg (by simp [notComma])
            have ht : (',' :: csvRow (csvField g :: fs''.map csvField)).takeWhile notComma
                = [] :=
              List.takeWhile_cons_of_neg (by simp [notComma])
            rw [hdrop, ht]
            rw [show csvRow (csvField g :: fs''.map csvField)
                  = csvRow ((g :: fs'').map csvField) by simp [List.map_cons]]
            show ([] : List Char) ::
                splitFields (fuel' + 1) (csvRow ((g :: fs'').map csvField))
              = [] :: g :: fs''
            rw [hrowIH]
          | c :: cs, hq' =>
            have hmem := csvNeedsQuote_false_mem (c :: cs) hq'
            have hc : (c == '"') = false := (hmem c (by simp)).2
            rw [List.cons_append]
            rw [splitFields_succ_other (fuel' + 1) c _ hc]
            rw [show (c :: (cs ++ ',' :: csvRow (csvField g :: fs''.map csvField)))
                  = (c :: cs) ++ ',' :: csvRow (csvField g :: fs''.map csvField) from rfl]
            have hall : ∀ a ∈ c :: cs, notComma a := by
              intro a ha
              exact (hmem a ha).1
            rw [List.takeWhile_append_of_pos hall, List.dropWhile_append_of_pos hall]
            have hdrop : (',' :: csvRow (csvField g :: fs''.map csvField)).dropWhile notComma
                = ',' :: csvRow (csvField g :: fs''.map csvField) :=
              List.dropWhile_cons_of_neg (by simp [notComma])
            have ht : (',' :: csvRow (csvField g :: fs''.map csvField)).takeWhile notComma
                = [] :=
              List.takeWhile_cons_of_neg (by simp [notComma])
            rw [hdrop, ht, List.append_nil]
            rw [show csvRow (csvField g :: fs''.map csvField)
                  = csvRow ((g :: fs'').map csvField) by simp [List.map_cons]]
            show (c :: cs) ::
                splitFields (fuel' + 1) (csvRow ((g :: fs'').map csvField))
              = (c :: cs) :: g :: fs''
            rw [hrowIH]


theorem csvRow_length_ge : ∀ (gs : List (List Char)), gs.length ≤ (csvRow gs).length + 1
  | [] => by simp [csvRow]
  | [f] => by simp [csvRow]
  | f :: g :: fs => by
      have ih := csvRow_length_ge (g :: fs)
      simp only [csvRow, List.length_cons, List.length_append] at ih ⊢
      omega

/- ## CSV claim theorems -/

/-- C4: the exported CSV has exactly one data row per ability record (plus
the fixed header row); `generate_ability_csv` is a pure function of the
record list in this embedding, so repeated runs on the same records return
the same rows and in particular the same row count. -/
theorem csv_one_row_per_record (records : List AbilityRecord) :
    (generate_ability_csv records).length = records.length + 1 :=
  by simp [generate_ability_csv]

/-- C5: parse-after-write round trip: reading back the CSV line written
for any ability record (in particular one whose fields contain commas,
quotes or newlines, which `csvField` escapes per standard CSV quoting)
yields exactly the original field values in order. -/
theorem csv_parse_after_write (a : AbilityRecord) :
    parseRow (abilityRow a) =
      [a.ability_id.data, a.name.data, a.description.data, a.tactic.data,
       a.technique.data] := by
  have hge := csvRow_length_ge ((abilityFields a).map csvField)
  have h5 : ((abilityFields a).map csvField).length = 5 := by
    simp [abilityFields]
  rw [h5] at hge
  have h4 : 4 ≤ (abilityRow a).length := by
    simp only [abilityRow]
    omega
  have hmain := splitFields_round
    [a.name.data, a.description.data, a.tactic.data, a.technique.data]
    a.ability_id.data ((abilityRow a).length) (by simpa using h4)
  show splitFields ((abilityRow a).length + 1) (abilityRow a) = _
  simpa [abilityRow, abilityFields] using hmain

/-- C6: the CSV write is atomic relative to the target path: a successful
run leaves the complete exported rows at the target, a failed run (for
example permission denied or disk full) leaves the target exactly as it
was with no partial file and no leftover temporary file, and the failure
is reported to the caller — which is fatal to the build, since `conf.py`
invokes the exporter with no exception handler. -/
theorem csv_write_atomic (records : List AbilityRecord) (ok : Bool)
    (fs : FsState) :
    ((atomicCsvWrite records ok fs).2 = true →
       (atomicCsvWrite records ok fs).1.target
         = some (generate_ability_csv records)) ∧
    ((atomicCsvWrite records ok fs).2 = false →
       (atomicCsvWrite records ok fs).1.target = fs.target) ∧
    (atomicCsvWrite records ok fs).1.temp = none ∧
    ((atomicCsvWrite records ok fs).2 = false ↔ ok = false) := by
  cases ok <;> simp [atomicCsvWrite]

/-- Witness for C6 at concrete inputs: a failed run on an absent target
leaves the target absent, and a successful run installs the complete
rows. -/
theorem csv_write_atomic_witness :
    (atomicCsvWrite [] false { target := none, temp := none }).1.target = none ∧
    (atomicCsvWrite [] true { target := none, temp := none }).1.target
      = some (generate_ability_csv []) :=
  ⟨(csv_write_atomic [] false { target := none, temp := none }).2.1 rfl,
   (csv_write_atomic [] true { target := none, temp := none }).1 rfl⟩


/- ## Plugin importer lemmas -/

theorem applyWrites_eq (ws : List (String × String)) :
    ∀ (tree : DocTree) (q : String),
      applyWrites ws tree q = (lastWrite ws q).elim (tree q) some := by
  induction ws with
  | nil => intro tree q; rfl
  | cons w ws ih =>
      intro tree q
      have hstep : applyWrites (w :: ws) tree
          = applyWrites ws (writeTreeFile tree w.1 w.2) := rfl
      rw [hstep, ih]
      rcases h : lastWrite ws q with _ | c
      · simp only [lastWrite, h, Option.elim]
        by_cases hq : q = w.1 <;> simp [writeTreeFile, hq]
      · simp [lastWrite, h]

theorem applyWrites_idem (ws : List (String × String)) (tree : DocTree) :
    applyWrites ws (applyWrites ws tree) = applyWrites ws tree := by
  funext q
  rw [applyWrites_eq, applyWrites_eq]
  rcases h : lastWrite ws q with _ | c <;> rfl

/- ## Plugin importer claim theorems -/

/-- C7: the plugin documentation import is idempotent: running it twice in
succession yields the same build tree (and the same found-plugins log) as
running it once, because a second run overwrites each copied file with the
same content rather than duplicating anything. -/
theorem import_plugin_docs_idempotent (plugins : List PluginInfo)
    (bldRoot : String) (tree : DocTree) :
    (import_plugin_docs plugins bldRoot
        (import_plugin_docs plugins bldRoot tree).1)
      = import_plugin_docs plugins bldRoot tree := by
  simp only [import_plugin_docs]
  rw [applyWrites_idem]

/-- C8: a plugin with no documentation source directory is skipped: any
plugin list containing it, once imported, yields exactly the build tree and
found-plugins log of the same list without it, so the absence contributes
no writes, no log entry, and no failure (the importer is a total
function). -/
theorem import_plugin_docs_skips_missing (pre post : List PluginInfo)
    (p : PluginInfo) (bldRoot : String) (tree : DocTree)
    (h : p.docs = none) :
    (import_plugin_docs (pre ++ p :: post) bldRoot tree)
      = import_plugin_docs (pre ++ post) bldRoot tree := by
  have hplan : planWrites bldRoot (pre ++ p :: post)
      = planWrites bldRoot (pre ++ post) := by
    induction pre with
    | nil => simp [planWrites, pluginWrites, h]
    | cons w pre ih =>
        simp only [List.cons_append, planWrites, List.foldr_cons] at ih ⊢
        rw [ih]
  have hfound : (pre ++ p :: post).filter (fun q => q.docs.isSome)
      = (pre ++ post).filter (fun q => q.docs.isSome) := by
    simp [List.filter_append, List.filter_cons, h]
  simp only [import_plugin_docs, hplan, hfound]

/-- Witness for C8: importing a single plugin that has no documentation
directory equals importing the empty plugin list. -/
theorem import_plugin_docs_skips_missing_witness :
    (import_plugin_docs [{ name := "x", docs := none }] "" (fun _ => none))
      = import_plugin_docs [] "" (fun _ => none) := by
  exact import_plugin_docs_skips_missing [] [] { name := "x", docs := none } ""
    (fun _ => none) rfl

/- ## conf.py claim theorems -/

/-- C9: if the apidoc stub-generation step raises, `conf.py` stops there:
only the apidoc step has started, the importer and the CSV exporter never
run, and the error surfaces to the build invoker as the script's fatal
outcome. -/
theorem apidoc_failure_fatal (env : BuildEnv) (e : String)
    (h : env.apidocResult = Except.error e) :
    confTrace env = (["apidoc"], some e) := by
  simp [confTrace, h]

/-- Witness for C9 at a concrete environment whose apidoc step fails. -/
theorem apidoc_failure_fatal_witness :
    confTrace { apidocResult := Except.error "stub generation failed",
                pluginDocsResult := Except.ok (), csvResult := Except.ok () }
      = (["apidoc"], some "stub generation failed") :=
  apidoc_failure_fatal
    { apidocResult := Except.error "stub generation failed",
      pluginDocsResult := Except.ok (), csvResult := Except.ok () }
    "stub generation failed" rfl

/-- C10 counterexample: the claim that the identical resolved root value
is passed to the stub generator is false at a concrete working directory:
`conf.py` passes `caldera_root_dir / 'app'` — the `app` subdirectory of
the root — to apidoc, not the root itself. -/
theorem conf_root_not_identical_for_apidoc :
    (confCalls "/repo/docs/sphinx-docs").apidocTarget
      ≠ caldera_root_dir "/repo/docs/sphinx-docs" := by
  decide

/-- C10 amended: the host-project root is resolved once, as the absolute
form of `../../..` relative to the working directory; that identical value
is prepended to the module search path and passed to the plugin
documentation importer and the ability CSV exporter, while the stub
generator receives the `app` subdirectory of that same root. -/
theorem conf_single_root_resolved_once (cwd : String) :
    (confCalls cwd).sysPathEntry = caldera_root_dir cwd ∧
    (confCalls cwd).pluginDocsRoot = caldera_root_dir cwd ∧
    (confCalls cwd).csvRoot = caldera_root_dir cwd ∧
    (confCalls cwd).apidocTarget = caldera_root_dir cwd ++ "/app" :=
  ⟨rfl, rfl, rfl, rfl⟩

end Fieldmanual
